import Mathlib

/-!
Verification of the wire-art core of `src/art.ts`.

JavaScript strings are embedded as `List Char`, JS numbers that are used as
integers as `Int`, and JS numbers used as real quantities (random samples,
times, lerp values) as `ℚ`.  The occupancy object keyed by lattice strings is
embedded as a function `List Char → Option WirePiece`.
-/

/-- JS strings in this development are lists of characters. -/
abbrev LatticePoint := List Char

/-- The character of a decimal digit `d < 10` (code point `48 + d`). -/
def digitToChar (d : Nat) : Char := Char.ofNat (48 + d)

/-- The numeric value of a decimal digit character. -/
def charToDigit (c : Char) : Nat := c.toNat - 48

/-- Whether `c` is one of the characters 0-9. -/
def isDigitChar (c : Char) : Bool := 48 ≤ c.toNat && c.toNat ≤ 57

/-- Little-endian decimal digits of `n`, with `fuel` bounding the recursion
(`natToRevDigitsAux n n` computes the digits of `n`). -/
def natToRevDigitsAux : Nat → Nat → List Nat
  | 0, _ => []
  | _ + 1, 0 => []
  | fuel + 1, n + 1 => ((n + 1) % 10) :: natToRevDigitsAux fuel ((n + 1) / 10)

/-- Decimal rendering of a natural number, as produced by JS string
interpolation of a non-negative integer. -/
def natToChars (n : Nat) : List Char :=
  if n = 0 then ['0'] else ((natToRevDigitsAux n n).reverse).map digitToChar

/-- Decimal rendering of an integer, as produced by JS string interpolation:
a leading minus sign for negative values, then the digits of the absolute
value. -/
def intToChars (n : Int) : List Char :=
  if n < 0 then '-' :: natToChars n.natAbs else natToChars n.toNat

/-- The JS `x | 0` conversion (ToInt32) on an integer-valued number:
wrap modulo `2^32` into the signed 32-bit range. -/
def toInt32 (n : Int) : Int := (n + 2147483648) % 4294967296 - 2147483648

/-- Embedding of `toLatticePoint` (art.ts line 15): the string
`` `${x | 0},${y | 0}` ``. -/
def toLatticePoint (x y : Int) : LatticePoint :=
  intToChars (toInt32 x) ++ ',' :: intToChars (toInt32 y)

/-- Accumulating digit-run parser: the longest run of decimal digits at the
head of the list extends the accumulator as in JS `parseInt`, and the first
non-digit stops the parse. -/
def parseNatAux : Nat → List Char → Nat
  | acc, [] => acc
  | acc, c :: rest => if isDigitChar c then parseNatAux (10 * acc + charToDigit c) rest else acc

/-- Parse a leading run of decimal digits; `none` when the list does not
start with a digit (JS `parseInt` returns NaN there). -/
def parseNatLead : List Char → Option Nat
  | [] => none
  | c :: rest => if isDigitChar c then some (parseNatAux (charToDigit c) rest) else none

/-- Embedding of JS `parseInt(s)` on the canonical decimal strings this
program produces: an optional sign followed by a digit run; `none` models the
NaN result. -/
def parseIntChars (cs : List Char) : Option Int :=
  match cs with
  | [] => none
  | c :: rest =>
    if c = '-' then (parseNatLead rest).map (fun n => -(n : Int))
    else if c = '+' then (parseNatLead rest).map (fun n => (n : Int))
    else (parseNatLead (c :: rest)).map (fun n => (n : Int))

/-- Embedding of JS `String.prototype.split(',')`. -/
def splitComma : List Char → List (List Char)
  | [] => [[]]
  | c :: rest =>
    if c = ',' then [] :: splitComma rest
    else
      match splitComma rest with
      | [] => [[c]]
      | p :: ps => (c :: p) :: ps

/-- Embedding of `fromLatticePoint` (art.ts line 19): split on the comma and
`parseInt` the first two components; a missing component destructures to
`undefined` whose parse is NaN (`none`). -/
def fromLatticePoint (p : LatticePoint) : Option Int × Option Int :=
  match splitComma p with
  | x :: y :: _ => (parseIntChars x, parseIntChars y)
  | [x] => (parseIntChars x, none)
  | [] => (none, none)

theorem charToDigit_digitToChar (d : Nat) (h : d < 10) : charToDigit (digitToChar d) = d := by
  interval_cases d <;> decide

theorem isDigitChar_digitToChar (d : Nat) (h : d < 10) : isDigitChar (digitToChar d) = true := by
  interval_cases d <;> decide

theorem digitToChar_ne_comma (d : Nat) (h : d < 10) : digitToChar d ≠ ',' := by
  interval_cases d <;> decide

theorem digitToChar_ne_minus (d : Nat) (h : d < 10) : digitToChar d ≠ '-' := by
  interval_cases d <;> decide

theorem digitToChar_ne_plus (d : Nat) (h : d < 10) : digitToChar d ≠ '+' := by
  interval_cases d <;> decide

theorem natToRevDigitsAux_lt (fuel n : Nat) : ∀ d ∈ natToRevDigitsAux fuel n, d < 10 := by
  induction fuel generalizing n with
  | zero => simp [natToRevDigitsAux]
  | succ fuel ih =>
    cases n with
    | zero => simp [natToRevDigitsAux]
    | succ n =>
      intro d hd
      simp only [natToRevDigitsAux, List.mem_cons] at hd
      rcases hd with h | h
      · omega
      · exact ih _ _ h

theorem natToRevDigitsAux_ne_nil (fuel n : Nat) (hn : 0 < n) (h : n ≤ fuel) :
    natToRevDigitsAux fuel n ≠ [] := by
  cases fuel with
  | zero => omega
  | succ fuel =>
    cases n with
    | zero => omega
    | succ n => simp [natToRevDigitsAux]

theorem foldr_natToRevDigitsAux (fuel : Nat) : ∀ n, n ≤ fuel →
    (natToRevDigitsAux fuel n).foldr (fun d a => 10 * a + d) 0 = n := by
  induction fuel with
  | zero => intro n h; interval_cases n; simp [natToRevDigitsAux]
  | succ fuel ih =>
    intro n h
    cases n with
    | zero => simp [natToRevDigitsAux]
    | succ n =>
      have hdiv : (n + 1) / 10 < n + 1 := Nat.div_lt_self (by omega) (by omega)
      have := ih ((n + 1) / 10) (by omega)
      simp only [natToRevDigitsAux, List.foldr_cons, this]
      omega

theorem parseNatAux_digits (ds : List Nat) : ∀ acc, (∀ d ∈ ds, d < 10) →
    parseNatAux acc (ds.map digitToChar) = ds.foldl (fun a d => 10 * a + d) acc := by
  induction ds with
  | nil => intro acc _; simp [parseNatAux]
  | cons d t ih =>
    intro acc h
    have hd : d < 10 := h d (List.mem_cons_self d t)
    simp only [List.map_cons, parseNatAux, isDigitChar_digitToChar d hd, if_pos,
      charToDigit_digitToChar d hd, List.foldl_cons]
    exact ih _ (fun x hx => h x (List.mem_cons_of_mem d hx))

theorem parseNatLead_digits (ds : List Nat) (h : ∀ d ∈ ds, d < 10) (hne : ds ≠ []) :
    parseNatLead (ds.map digitToChar) = some (ds.foldl (fun a d => 10 * a + d) 0) := by
  cases ds with
  | nil => exact absurd rfl hne
  | cons d t =>
    have hd : d < 10 := h d (List.mem_cons_self d t)
    simp only [List.map_cons, parseNatLead, isDigitChar_digitToChar d hd, if_pos,
      charToDigit_digitToChar d hd, List.foldl_cons]
    rw [parseNatAux_digits t d (fun x hx => h x (List.mem_cons_of_mem d hx))]
    simp

theorem parseNatLead_natToChars (n : Nat) : parseNatLead (natToChars n) = some n := by
  by_cases h0 : n = 0
  · subst h0; decide
  · have hpos : 0 < n := Nat.pos_of_ne_zero h0
    have hlt : ∀ d ∈ (natToRevDigitsAux n n).reverse, d < 10 := by
      intro d hd
      exact natToRevDigitsAux_lt n n d (List.mem_reverse.mp hd)
    have hne : (natToRevDigitsAux n n).reverse ≠ [] := by
      simp only [ne_eq, List.reverse_eq_nil_iff]
      exact natToRevDigitsAux_ne_nil n n hpos le_rfl
    simp only [natToChars, if_neg h0]
    rw [parseNatLead_digits _ hlt hne, List.foldl_reverse]
    congr 1
    have := foldr_natToRevDigitsAux n n le_rfl
    simpa using this

theorem natToChars_head (n : Nat) :
    ∃ d t, natToChars n = digitToChar d :: t ∧ d < 10 := by
  by_cases h0 : n = 0
  · subst h0
    refine ⟨0, [], ?_, by omega⟩
    decide
  · have hpos : 0 < n := Nat.pos_of_ne_zero h0
    have hne : (natToRevDigitsAux n n).reverse ≠ [] := by
      simp only [ne_eq, List.reverse_eq_nil_iff]
      exact natToRevDigitsAux_ne_nil n n hpos le_rfl
    obtain ⟨d, t, ht⟩ := List.exists_cons_of_ne_nil hne
    refine ⟨d, t.map digitToChar, ?_, ?_⟩
    · simp [natToChars, if_neg h0, ht]
    · exact natToRevDigitsAux_lt n n d (List.mem_reverse.mp (ht ▸ List.mem_cons_self d t))

theorem parseIntChars_natToChars (n : Nat) : parseIntChars (natToChars n) = some (n : Int) := by
  obtain ⟨d, t, ht, hd⟩ := natToChars_head n
  rw [ht]
  simp only [parseIntChars, if_neg (digitToChar_ne_minus d hd), if_neg (digitToChar_ne_plus d hd)]
  rw [← ht, parseNatLead_natToChars]
  simp

theorem parseIntChars_intToChars (n : Int) : parseIntChars (intToChars n) = some n := by
  by_cases hneg : n < 0
  · simp only [intToChars, if_pos hneg, parseIntChars, if_pos rfl]
    rw [parseNatLead_natToChars]
    show some (-(n.natAbs : Int)) = some n
    congr 1
    omega
  · simp only [intToChars, if_neg hneg]
    rw [parseIntChars_natToChars]
    congr 1
    omega

theorem comma_not_mem_natToChars (n : Nat) : ',' ∉ natToChars n := by
  by_cases h0 : n = 0
  · subst h0; decide
  · simp only [natToChars, if_neg h0]
    intro hmem
    obtain ⟨d, hd, hdc⟩ := List.mem_map.mp hmem
    exact digitToChar_ne_comma d (natToRevDigitsAux_lt n n d (List.mem_reverse.mp hd)) hdc

theorem comma_not_mem_intToChars (n : Int) : ',' ∉ intToChars n := by
  by_cases hneg : n < 0
  · simp only [intToChars, if_pos hneg, List.mem_cons]
    rintro (h | h)
    · exact absurd h.symm (by decide)
    · exact comma_not_mem_natToChars _ h
  · simp only [intToChars, if_neg hneg]
    exact comma_not_mem_natToChars _

theorem splitComma_append (a b : List Char) (ha : ',' ∉ a) :
    splitComma (a ++ ',' :: b) = a :: splitComma b := by
  induction a with
  | nil => simp [splitComma]
  | cons c a ih =>
    have hc : c ≠ ',' := fun h => ha (h ▸ List.mem_cons_self c a)
    have ha' : ',' ∉ a := fun h => ha (List.mem_cons_of_mem c h)
    simp only [List.cons_append, splitComma, if_neg hc, List.append_eq, ih ha']

theorem splitComma_no_comma (b : List Char) (hb : ',' ∉ b) : splitComma b = [b] := by
  induction b with
  | nil => simp [splitComma]
  | cons c b ih =>
    have hc : c ≠ ',' := fun h => hb (h ▸ List.mem_cons_self c b)
    have hb' : ',' ∉ b := fun h => hb (List.mem_cons_of_mem c h)
    simp only [splitComma, if_neg hc, ih hb']

theorem toInt32_eq_self (n : Int) (h1 : -2147483648 ≤ n) (h2 : n < 2147483648) :
    toInt32 n = n := by
  unfold toInt32
  omega

/-- **C2** — For every pair of integers x, y within 32-bit signed range,
decoding the encoded key round-trips: `fromLatticePoint (toLatticePoint x y)`
recovers `(x, y)` (each successfully parsed). -/
theorem codec_round_trip (x y : Int)
    (hx1 : -2147483648 ≤ x) (hx2 : x < 2147483648)
    (hy1 : -2147483648 ≤ y) (hy2 : y < 2147483648) :
    fromLatticePoint (toLatticePoint x y) = (some x, some y) := by
  unfold toLatticePoint
  rw [toInt32_eq_self x hx1 hx2, toInt32_eq_self y hy1 hy2]
  unfold fromLatticePoint
  rw [splitComma_append _ _ (comma_not_mem_intToChars x),
    splitComma_no_comma _ (comma_not_mem_intToChars y)]
  simp only [parseIntChars_intToChars]

/-- Witness for C2 at the concrete pair (-15, 7). -/
theorem codec_round_trip_witness :
    fromLatticePoint (toLatticePoint (-15) 7) = (some (-15), some 7) :=
  codec_round_trip (-15) 7 (by norm_num) (by norm_num) (by norm_num) (by norm_num)

/-- The three wire directions of `type WireDirection` (art.ts line 3). -/
inductive WireDirection where
  | down
  | downLeft
  | downRight
deriving DecidableEq

instance : Inhabited WireDirection := ⟨WireDirection.down⟩

/-- The runtime string of each direction value. -/
def WireDirection.toStr : WireDirection → String
  | .down => "down"
  | .downLeft => "down-left"
  | .downRight => "down-right"

/-- `type TipPosition = false | 'begin' | 'end' | 'begin-end'` (art.ts
line 5); `noTip` embeds the JS value `false`. -/
inductive TipPosition where
  | noTip
  | tipBegin
  | tipEnd
  | tipBeginEnd
deriving DecidableEq

/-- A stored segment: `type WirePiece` (art.ts line 7). -/
structure WirePiece where
  direction : WireDirection
  lerp : ℚ
  tipPosition : TipPosition
deriving DecidableEq

/-- A wire node: `type WireNode` (art.ts line 24). -/
structure WireNode where
  point : Int × Int
  direction : WireDirection
deriving DecidableEq

instance : Inhabited WireNode := ⟨⟨(0, 0), WireDirection.down⟩⟩

/-- `type Wire = WireNode[]` (art.ts line 26). -/
abbrev Wire := List WireNode

/-- An entry of `wiresQueue`: a wire with its reveal cursor. -/
structure QueueEntry where
  wire : Wire
  cursor : Nat
deriving DecidableEq

/-- `type World` (art.ts line 28); the string-keyed `wirePieces` object is
embedded as a function from keys to optional pieces. -/
structure World where
  dimensions : Int × Int
  wirePieces : LatticePoint → Option WirePiece
  wiresQueue : List QueueEntry

/-- The lattice key of a point pair. -/
def latticeKey (p : Int × Int) : LatticePoint := toLatticePoint p.1 p.2

/-- Embedding of `nextPoint` (art.ts line 41) at its runtime domain: the
direction is an arbitrary string and the `throw 'invalid'` arm is `none`. -/
def nextPoint (p : Int × Int) (direction : String) : Option (Int × Int) :=
  if direction = "down" then some (p.1, p.2 + 1)
  else if direction = "down-left" then some (p.1 - 1, p.2 + 1)
  else if direction = "down-right" then some (p.1 + 1, p.2 + 1)
  else none

/-- `nextPoint` restricted to the `WireDirection` type domain, where the
throwing arm is unreachable. -/
def nextPointD (p : Int × Int) (direction : WireDirection) : Int × Int :=
  match direction with
  | .down => (p.1, p.2 + 1)
  | .downLeft => (p.1 - 1, p.2 + 1)
  | .downRight => (p.1 + 1, p.2 + 1)

theorem nextPoint_toStr (p : Int × Int) (d : WireDirection) :
    nextPoint p d.toStr = some (nextPointD p d) := by
  cases d <;> rfl

/-- Embedding of `checkPoint` (art.ts line 48): `!!world.wirePieces[key]`. -/
def checkPoint (world : World) (p : Int × Int) : Bool :=
  (world.wirePieces (toLatticePoint p.1 p.2)).isSome

/-- Embedding of `wireIntersects` (art.ts line 52) on typed wires. -/
def wireIntersects (world : World) (wire : Wire) : Bool :=
  wire.any fun n =>
    match n.direction with
    | .down => checkPoint world (n.point.1, n.point.2) || checkPoint world (n.point.1, n.point.2 + 1)
    | .downLeft => checkPoint world (n.point.1, n.point.2) || checkPoint world (n.point.1 - 1, n.point.2)
    | .downRight => checkPoint world (n.point.1, n.point.2) || checkPoint world (n.point.1 + 1, n.point.2)

/-- A wire node as seen at runtime, with an arbitrary string direction. -/
structure RawWireNode where
  point : Int × Int
  direction : String
deriving DecidableEq

/-- Embedding of `wireIntersects` at its runtime domain: the chain of `if`
comparisons on the direction string, falling through to `false` for any
unknown direction (art.ts line 64). -/
def wireIntersectsRaw (world : World) (wire : List RawWireNode) : Bool :=
  wire.any fun n =>
    if n.direction = "down" then
      checkPoint world (n.point.1, n.point.2) || checkPoint world (n.point.1, n.point.2 + 1)
    else if n.direction = "down-left" then
      checkPoint world (n.point.1, n.point.2) || checkPoint world (n.point.1 - 1, n.point.2)
    else if n.direction = "down-right" then
      checkPoint world (n.point.1, n.point.2) || checkPoint world (n.point.1 + 1, n.point.2)
    else false

/-- A world whose only occupied cell is (0,0), used as a concrete store. -/
def world1 : World :=
  { dimensions := (10, 10)
    wirePieces := fun k =>
      if k = toLatticePoint 0 0 then some ⟨WireDirection.down, 1, TipPosition.noTip⟩ else none
    wiresQueue := [] }

/-- **C1** — `wireIntersects` returns true iff some node triggers its
direction-dependent rule (`down`: cell (x,y) or (x,y+1) occupied;
`down-left`: (x,y) or (x-1,y); `down-right`: (x,y) or (x+1,y)); with only
cell (0,0) occupied, a single-node wire at (0,0) going down is rejected and
one at (1,1) going down is accepted. -/
theorem wireIntersects_iff :
    (∀ (world : World) (wire : Wire),
      wireIntersects world wire = true ↔
        ∃ n ∈ wire,
          (n.direction = WireDirection.down ∧
            (checkPoint world (n.point.1, n.point.2) = true ∨
             checkPoint world (n.point.1, n.point.2 + 1) = true)) ∨
          (n.direction = WireDirection.downLeft ∧
            (checkPoint world (n.point.1, n.point.2) = true ∨
             checkPoint world (n.point.1 - 1, n.point.2) = true)) ∨
          (n.direction = WireDirection.downRight ∧
            (checkPoint world (n.point.1, n.point.2) = true ∨
             checkPoint world (n.point.1 + 1, n.point.2) = true))) ∧
    wireIntersects world1 [⟨(0, 0), WireDirection.down⟩] = true ∧
    wireIntersects world1 [⟨(1, 1), WireDirection.down⟩] = false := by
  refine ⟨?_, by decide, by decide⟩
  intro world wire
  rw [wireIntersects, List.any_eq_true]
  constructor
  · rintro ⟨n, hn, hp⟩
    refine ⟨n, hn, ?_⟩
    cases hd : n.direction <;> rw [hd] at hp <;> simp only [Bool.or_eq_true] at hp
    · exact Or.inl ⟨rfl, hp⟩
    · exact Or.inr (Or.inl ⟨rfl, hp⟩)
    · exact Or.inr (Or.inr ⟨rfl, hp⟩)
  · rintro ⟨n, hn, hp⟩
    refine ⟨n, hn, ?_⟩
    rcases hp with ⟨hd, hp⟩ | ⟨hd, hp⟩ | ⟨hd, hp⟩ <;> rw [hd] <;>
      simp only [Bool.or_eq_true] <;> exact hp

/-- **C9** — the successor computation fails (returns `none`, embedding the
`throw`) exactly on direction values outside the three valid directions, and
never fails on the three valid ones. -/
theorem nextPoint_fails_iff_invalid :
    (∀ (p : Int × Int) (d : String),
      d ≠ "down" → d ≠ "down-left" → d ≠ "down-right" → nextPoint p d = none) ∧
    (∀ (p : Int × Int) (d : String),
      (d = "down" ∨ d = "down-left" ∨ d = "down-right") → (nextPoint p d).isSome = true) := by
  constructor
  · intro p d h1 h2 h3
    simp [nextPoint, h1, h2, h3]
  · rintro p d (rfl | rfl | rfl) <;> rfl

/-- Witness for C9 at concrete inputs: direction "up" fails, "down"
succeeds. -/
theorem nextPoint_fails_iff_invalid_witness :
    nextPoint ((0 : Int), (0 : Int)) "up" = none ∧
    (nextPoint ((0 : Int), (0 : Int)) "down").isSome = true :=
  ⟨nextPoint_fails_iff_invalid.1 (0, 0) "up" (by decide) (by decide) (by decide),
   nextPoint_fails_iff_invalid.2 (0, 0) "down" (Or.inl rfl)⟩

/-- **C10** — `wireIntersects` is total over arbitrary runtime direction
strings: a node whose direction is none of the three valid values never
causes a failure and contributes no intersection, so deleting it from the
wire leaves the result unchanged. -/
theorem wireIntersectsRaw_skips_invalid (world : World) (l1 l2 : List RawWireNode)
    (n : RawWireNode) (h1 : n.direction ≠ "down") (h2 : n.direction ≠ "down-left")
    (h3 : n.direction ≠ "down-right") :
    wireIntersectsRaw world (l1 ++ n :: l2) = wireIntersectsRaw world (l1 ++ l2) := by
  unfold wireIntersectsRaw
  rw [List.any_append, List.any_append, List.any_cons]
  simp [h1, h2, h3]

/-- Witness for C10: a node with direction "sideways" in the middle of a
concrete wire over `world1` changes nothing. -/
theorem wireIntersectsRaw_skips_invalid_witness :
    wireIntersectsRaw world1
        ([⟨(0, 0), "down"⟩] ++ ⟨(0, 0), "sideways"⟩ :: [⟨(1, 1), "down"⟩]) =
      wireIntersectsRaw world1 ([⟨(0, 0), "down"⟩] ++ [⟨(1, 1), "down"⟩]) :=
  wireIntersectsRaw_skips_invalid world1 [⟨(0, 0), "down"⟩] [⟨(1, 1), "down"⟩]
    ⟨(0, 0), "sideways"⟩ (by decide) (by decide) (by decide)

/-- Embedding of `randomChoice` (art.ts line 35): index the array with
`Math.floor(r * array.length)` where `r` is the uniform sample. -/
def randomChoice {α : Type} [Inhabited α] (r : ℚ) (array : List α) : α :=
  array.getD (⌊r * (array.length : ℚ)⌋).toNat default

/-- Embedding of `randomDirection` (art.ts line 39). -/
def randomDirection (r : ℚ) : WireDirection :=
  randomChoice r [WireDirection.down, WireDirection.downLeft, WireDirection.downRight]

/-- Embedding of the local `randomPoint` closure of `generateWire`
(art.ts line 71): `Math.floor(r1 * w)` and `Math.floor(r2 ^ 2 * h * 0.5)`. -/
def randomPoint (r1 r2 : ℚ) (dims : Int × Int) : Int × Int :=
  (⌊r1 * (dims.1 : ℚ)⌋, ⌊r2 ^ 2 * (dims.2 : ℚ) * (1 / 2)⌋)

/-- Embedding of the extension loop of `generateWire` (art.ts lines 87-104).
`k` is the index of the next unconsumed sample of the random stream `rng`;
each iteration computes the next point from the previous direction, then with
probability 0.35 switches direction (`down` to a random diagonal, a diagonal
back to `down`), and appends the node with the possibly updated direction. -/
def genSteps (rng : ℕ → ℚ) : ℕ → ℕ → Int × Int → WireDirection → List WireNode
  | _, 0, _, _ => []
  | k, steps + 1, p, dir =>
    if rng k < 35 / 100 then
      match dir with
      | WireDirection.down =>
        ⟨nextPointD p dir, randomChoice (rng (k + 1)) [WireDirection.downLeft, WireDirection.downRight]⟩ ::
          genSteps rng (k + 2) steps (nextPointD p dir)
            (randomChoice (rng (k + 1)) [WireDirection.downLeft, WireDirection.downRight])
      | _ =>
        ⟨nextPointD p dir, WireDirection.down⟩ ::
          genSteps rng (k + 1) steps (nextPointD p dir) WireDirection.down
    else
      ⟨nextPointD p dir, dir⟩ :: genSteps rng (k + 1) steps (nextPointD p dir) dir

/-- Embedding of `generateWire` (art.ts line 68).  The samples of `rng` are
consumed in source order: index 0 for the wire length, 1 and 2 for the start
point, 3 for the initial direction, and the rest by the extension loop. -/
def generateWire (rng : ℕ → ℚ) (dims : Int × Int) : Wire :=
  ⟨randomPoint (rng 1) (rng 2) dims, randomDirection (rng 3)⟩ ::
    genSteps rng 4 (3 + (⌊rng 0 * 12⌋).toNat) (randomPoint (rng 1) (rng 2) dims)
      (randomDirection (rng 3))

theorem genSteps_length (rng : ℕ → ℚ) (steps : ℕ) :
    ∀ k p dir, (genSteps rng k steps p dir).length = steps := by
  induction steps with
  | zero => intro k p dir; rfl
  | succ steps ih =>
    intro k p dir
    by_cases h : rng k < 35 / 100
    · cases dir <;> simp [genSteps, h, ih]
    · simp [genSteps, h, ih]

/-- Each generated node's point is the `nextPointD` successor of the previous
node along the previous node's stored direction. -/
def chainFrom : Int × Int → WireDirection → List WireNode → Prop
  | _, _, [] => True
  | p, dir, n :: rest => n.point = nextPointD p dir ∧ chainFrom n.point n.direction rest

/-- Consecutive nodes of a wire are `nextPointD` successors. -/
def consecOk : List WireNode → Prop
  | [] => True
  | [_] => True
  | a :: b :: rest => b.point = nextPointD a.point a.direction ∧ consecOk (b :: rest)

theorem chainFrom_genSteps (rng : ℕ → ℚ) (steps : ℕ) :
    ∀ k p dir, chainFrom p dir (genSteps rng k steps p dir) := by
  induction steps with
  | zero => intro k p dir; trivial
  | succ steps ih =>
    intro k p dir
    by_cases h : rng k < 35 / 100
    · cases dir <;> simp only [genSteps, h, if_pos] <;> exact ⟨rfl, ih _ _ _⟩
    · simp only [genSteps, h, if_neg, not_false_iff]
      exact ⟨rfl, ih _ _ _⟩

theorem chain_to_consec (l : List WireNode) :
    ∀ p d, chainFrom p d l → consecOk (⟨p, d⟩ :: l) := by
  induction l with
  | nil => intro p d _; trivial
  | cons n rest ih =>
    intro p d h
    obtain ⟨h1, h2⟩ := h
    exact ⟨h1, ih n.point n.direction h2⟩

theorem consecOk_getD (l : List WireNode) :
    ∀ i, consecOk l → i + 1 < l.length →
      (l.getD (i + 1) default).point =
        nextPointD (l.getD i default).point (l.getD i default).direction := by
  induction l with
  | nil => intro i _ h; simp at h
  | cons a t ih =>
    intro i hc hlen
    cases t with
    | nil => simp at hlen
    | cons b t2 =>
      cases i with
      | zero => exact hc.1
      | succ i =>
        simp only [List.length_cons] at hlen
        refine ih i hc.2 ?_
        simp only [List.length_cons]
        omega

theorem generateWire_consecOk (rng : ℕ → ℚ) (dims : Int × Int) :
    consecOk (generateWire rng dims) := by
  unfold generateWire
  exact chain_to_consec _ _ _ (chainFrom_genSteps rng _ 4 _ _)

/-- **C4** — for every world dimensions and every outcome of the random
source, the generated wire has `1 + (3 + ⌊U·12⌋)` nodes, which lies between 4
and 15 inclusive. -/
theorem generateWire_length (rng : ℕ → ℚ) (dims : Int × Int)
    (h0 : 0 ≤ rng 0) (h1 : rng 0 < 1) :
    (generateWire rng dims).length = 1 + (3 + (⌊rng 0 * 12⌋).toNat) ∧
    4 ≤ (generateWire rng dims).length ∧ (generateWire rng dims).length ≤ 15 := by
  have hlen : (generateWire rng dims).length = 1 + (3 + (⌊rng 0 * 12⌋).toNat) := by
    simp only [generateWire, List.length_cons, genSteps_length]
    omega
  have hge : (0 : Int) ≤ ⌊rng 0 * 12⌋ :=
    Int.floor_nonneg.mpr (mul_nonneg h0 (by norm_num))
  have hlt : ⌊rng 0 * 12⌋ < 12 := by
    apply Int.floor_lt.mpr
    push_cast
    nlinarith
  refine ⟨hlen, ?_, ?_⟩ <;> rw [hlen] <;> omega

/-- Witness for C4 with the constant-zero random stream. -/
theorem generateWire_length_witness :
    (generateWire (fun _ => 0) ((10 : Int), (10 : Int))).length =
        1 + (3 + (⌊(0 : ℚ) * 12⌋).toNat) ∧
    4 ≤ (generateWire (fun _ => 0) ((10 : Int), (10 : Int))).length ∧
    (generateWire (fun _ => 0) ((10 : Int), (10 : Int))).length ≤ 15 :=
  generateWire_length (fun _ => 0) (10, 10) le_rfl (by norm_num)

/-- **C5** — consecutive nodes of a generated wire differ by exactly the
fixed offset of the earlier node's stored direction: `down` adds (0,1),
`down-left` adds (-1,1), `down-right` adds (+1,1). -/
theorem generateWire_consecutive (rng : ℕ → ℚ) (dims : Int × Int) (i : ℕ)
    (h : i + 1 < (generateWire rng dims).length) :
    ((generateWire rng dims).getD (i + 1) default).point =
      match ((generateWire rng dims).getD i default).direction with
      | WireDirection.down =>
        (((generateWire rng dims).getD i default).point.1,
         ((generateWire rng dims).getD i default).point.2 + 1)
      | WireDirection.downLeft =>
        (((generateWire rng dims).getD i default).point.1 - 1,
         ((generateWire rng dims).getD i default).point.2 + 1)
      | WireDirection.downRight =>
        (((generateWire rng dims).getD i default).point.1 + 1,
         ((generateWire rng dims).getD i default).point.2 + 1) := by
  have := consecOk_getD (generateWire rng dims) i (generateWire_consecOk rng dims) h
  rw [this]
  cases hd : ((generateWire rng dims).getD i default).direction <;> simp [nextPointD, hd]

/-- Witness for C5 at index 0 with the constant-zero random stream. -/
theorem generateWire_consecutive_witness :
    ((generateWire (fun _ => 0) ((10 : Int), (10 : Int))).getD 1 default).point =
      match ((generateWire (fun _ => 0) ((10 : Int), (10 : Int))).getD 0 default).direction with
      | WireDirection.down =>
        (((generateWire (fun _ => 0) ((10 : Int), (10 : Int))).getD 0 default).point.1,
         ((generateWire (fun _ => 0) ((10 : Int), (10 : Int))).getD 0 default).point.2 + 1)
      | WireDirection.downLeft =>
        (((generateWire (fun _ => 0) ((10 : Int), (10 : Int))).getD 0 default).point.1 - 1,
         ((generateWire (fun _ => 0) ((10 : Int), (10 : Int))).getD 0 default).point.2 + 1)
      | WireDirection.downRight =>
        (((generateWire (fun _ => 0) ((10 : Int), (10 : Int))).getD 0 default).point.1 + 1,
         ((generateWire (fun _ => 0) ((10 : Int), (10 : Int))).getD 0 default).point.2 + 1) :=
  generateWire_consecutive (fun _ => 0) (10, 10) 0
    (by
      have := generateWire_length (fun _ => 0) ((10 : Int), (10 : Int)) le_rfl (by norm_num)
      omega)

/-- `Art.WIRE_LERP_SPEED` (art.ts line 112), in units per second. -/
def WIRE_LERP_SPEED : ℚ := 50

/-- The state touched by the animation callback: the world, the running
segment's start time (`pieceLerpBeginTime`) and the dirty flag. -/
structure TickState where
  world : World
  pieceLerpBeginTime : ℚ
  dirty : Bool

/-- Pointwise update of the occupancy object
(`world.wirePieces[key] = piece`). -/
def storeSet (m : LatticePoint → Option WirePiece) (key : LatticePoint) (v : WirePiece) :
    LatticePoint → Option WirePiece :=
  fun k => if k = key then some v else m k

/-- Body of the animation callback once the head entry `e` of a non-empty
queue has been read (art.ts lines 191-224).  If the cursor is inside the
wire: past the per-segment deadline the current node is committed with
`lerp = 1` and the cursor advanced (the begin-time re-sample is modelled by
`now`); otherwise an in-progress snapshot is written.  A drained entry is
spliced off the head. -/
def animTickHead (s : TickState) (now : ℚ) (e : QueueEntry) (rest : List QueueEntry) : TickState :=
  if hc : e.cursor < e.wire.length then
    if now > s.pieceLerpBeginTime + 1000 / WIRE_LERP_SPEED then
      { world :=
          { dimensions := s.world.dimensions
            wirePieces := storeSet s.world.wirePieces
              (latticeKey (e.wire.get ⟨e.cursor, hc⟩).point)
              { direction := (e.wire.get ⟨e.cursor, hc⟩).direction
                lerp := 1
                tipPosition :=
                  if e.cursor + 1 = 1 then TipPosition.tipBegin
                  else if e.cursor + 1 = e.wire.length then TipPosition.tipEnd
                  else TipPosition.noTip }
            wiresQueue := ⟨e.wire, e.cursor + 1⟩ :: rest }
        pieceLerpBeginTime := now
        dirty := true }
    else
      { world :=
          { dimensions := s.world.dimensions
            wirePieces := storeSet s.world.wirePieces
              (latticeKey (e.wire.get ⟨e.cursor, hc⟩).point)
              { direction := (e.wire.get ⟨e.cursor, hc⟩).direction
                lerp := (now - s.pieceLerpBeginTime) / 1000 * WIRE_LERP_SPEED
                tipPosition :=
                  if e.cursor = 0 then TipPosition.tipBeginEnd else TipPosition.tipEnd }
            wiresQueue := e :: rest }
        pieceLerpBeginTime := s.pieceLerpBeginTime
        dirty := true }
  else
    { world :=
        { dimensions := s.world.dimensions
          wirePieces := s.world.wirePieces
          wiresQueue := rest }
      pieceLerpBeginTime := s.pieceLerpBeginTime
      dirty := s.dirty }

/-- One invocation of the animation callback `wireQueueTimer`
(art.ts lines 186-226): a no-op on an empty queue. -/
def animTick (s : TickState) (now : ℚ) : TickState :=
  match s.world.wiresQueue with
  | [] => s
  | e :: rest => animTickHead s now e rest

theorem animTick_cons (s : TickState) (now : ℚ) (e : QueueEntry) (rest : List QueueEntry)
    (hq : s.world.wiresQueue = e :: rest) : animTick s now = animTickHead s now e rest := by
  unfold animTick
  rw [hq]

/-- **C6** — on a finalizing tick the piece written for the current node has
`lerp = 1` and tip `begin` when the cursor advances to 1, `end` when it
advances to the wire's length (with length greater than 1), and no tip for
interior nodes; an in-progress tick at cursor 0 writes tip `begin-end`. -/
theorem reveal_tip_markers (s : TickState) (now : ℚ) (e : QueueEntry) (rest : List QueueEntry)
    (hq : s.world.wiresQueue = e :: rest) (hc : e.cursor < e.wire.length) :
    (now > s.pieceLerpBeginTime + 1000 / WIRE_LERP_SPEED →
      (animTick s now).world.wirePieces (latticeKey (e.wire.get ⟨e.cursor, hc⟩).point) =
        some { direction := (e.wire.get ⟨e.cursor, hc⟩).direction
               lerp := 1
               tipPosition :=
                 if e.cursor + 1 = 1 then TipPosition.tipBegin
                 else if e.cursor + 1 = e.wire.length then TipPosition.tipEnd
                 else TipPosition.noTip } ∧
      (animTick s now).world.wiresQueue = ⟨e.wire, e.cursor + 1⟩ :: rest) ∧
    (¬ now > s.pieceLerpBeginTime + 1000 / WIRE_LERP_SPEED → e.cursor = 0 →
      ((animTick s now).world.wirePieces (latticeKey (e.wire.get ⟨e.cursor, hc⟩).point)).map
          WirePiece.tipPosition = some TipPosition.tipBeginEnd) := by
  rw [animTick_cons s now e rest hq]
  constructor
  · intro ht
    unfold animTickHead
    rw [dif_pos hc, if_pos ht]
    exact ⟨by simp [storeSet], rfl⟩
  · intro ht h0
    unfold animTickHead
    rw [dif_pos hc, if_neg ht]
    simp [storeSet, h0]

/-- A two-node vertical wire used in concrete reveal states. -/
def wireC6 : Wire := [⟨(0, 0), WireDirection.down⟩, ⟨(0, 1), WireDirection.down⟩]

/-- A reveal state whose queue holds `wireC6` at cursor 0, begin time 0. -/
def tickC6 : TickState :=
  { world := { dimensions := (10, 10), wirePieces := fun _ => none, wiresQueue := [⟨wireC6, 0⟩] }
    pieceLerpBeginTime := 0
    dirty := false }

/-- Witness for C6: at time 25 (past the 20-unit budget) the first segment is
finalized with lerp 1 and tip `begin`, and the cursor advances to 1. -/
theorem reveal_tip_markers_witness :
    (animTick tickC6 25).world.wirePieces (latticeKey ((0 : Int), (0 : Int))) =
      some ⟨WireDirection.down, 1, TipPosition.tipBegin⟩ ∧
    (animTick tickC6 25).world.wiresQueue = [⟨wireC6, 1⟩] := by
  have h := (reveal_tip_markers tickC6 25 ⟨wireC6, 0⟩ [] rfl (by decide)).1
    (by norm_num [WIRE_LERP_SPEED, tickC6])
  refine ⟨?_, h.2⟩
  have h1 := h.1
  simpa [wireC6] using h1

/-- **C7 (amended)** — on an in-progress tick (elapsed time at most the
per-segment budget, monotonic clock) the written piece's lerp equals the
elapsed fraction and lies in the closed interval [0, 1]; it equals 1 exactly
at the boundary where the elapsed time equals the budget. -/
theorem reveal_inprogress_lerp (s : TickState) (now : ℚ) (e : QueueEntry)
    (rest : List QueueEntry) (hq : s.world.wiresQueue = e :: rest)
    (hc : e.cursor < e.wire.length) (hmono : s.pieceLerpBeginTime ≤ now)
    (hle : now ≤ s.pieceLerpBeginTime + 1000 / WIRE_LERP_SPEED) :
    (animTick s now).world.wirePieces (latticeKey (e.wire.get ⟨e.cursor, hc⟩).point) =
      some { direction := (e.wire.get ⟨e.cursor, hc⟩).direction
             lerp := (now - s.pieceLerpBeginTime) / 1000 * WIRE_LERP_SPEED
             tipPosition :=
               if e.cursor = 0 then TipPosition.tipBeginEnd else TipPosition.tipEnd } ∧
    0 ≤ (now - s.pieceLerpBeginTime) / 1000 * WIRE_LERP_SPEED ∧
    (now - s.pieceLerpBeginTime) / 1000 * WIRE_LERP_SPEED ≤ 1 := by
  rw [animTick_cons s now e rest hq]
  have ht : ¬ now > s.pieceLerpBeginTime + 1000 / WIRE_LERP_SPEED := not_lt.mpr hle
  refine ⟨?_, ?_, ?_⟩
  · unfold animTickHead
    rw [dif_pos hc, if_neg ht]
    simp [storeSet]
  · have : (0 : ℚ) ≤ now - s.pieceLerpBeginTime := by linarith
    rw [WIRE_LERP_SPEED]
    linarith
  · rw [WIRE_LERP_SPEED] at hle ⊢
    norm_num at hle ⊢
    linarith

/-- A single-node wire at the origin. -/
def wireC7 : Wire := [⟨(0, 0), WireDirection.down⟩]

/-- A reveal state whose queue holds `wireC7` at cursor 0, begin time 0. -/
def tickC7 : TickState :=
  { world := { dimensions := (10, 10), wirePieces := fun _ => none, wiresQueue := [⟨wireC7, 0⟩] }
    pieceLerpBeginTime := 0
    dirty := false }

/-- Witness for C7 at time 10, half way through the 20-unit budget. -/
theorem reveal_inprogress_lerp_witness :
    (animTick tickC7 10).world.wirePieces (latticeKey ((0 : Int), (0 : Int))) =
      some { direction := WireDirection.down
             lerp := ((10 : ℚ) - 0) / 1000 * WIRE_LERP_SPEED
             tipPosition := TipPosition.tipBeginEnd } ∧
    0 ≤ ((10 : ℚ) - 0) / 1000 * WIRE_LERP_SPEED ∧
    ((10 : ℚ) - 0) / 1000 * WIRE_LERP_SPEED ≤ 1 := by
  have h := reveal_inprogress_lerp tickC7 10 ⟨wireC7, 0⟩ [] rfl (by decide)
    (by norm_num [tickC7]) (by norm_num [tickC7, WIRE_LERP_SPEED])
  refine ⟨?_, h.2.1, h.2.2⟩
  have h1 := h.1
  simpa [wireC7, tickC7] using h1

/-- Counterexample to C7 as stated: at the boundary time `now = 20` the
elapsed time (20) does not exceed the budget `1000 / WIRE_LERP_SPEED = 20`,
the in-progress branch runs (the finalize test `now > endTime` is strict),
and the written lerp is exactly 1, outside the half-open interval [0, 1). -/
theorem reveal_inprogress_boundary :
    ¬ ((20 : ℚ) - 0 > 1000 / WIRE_LERP_SPEED) ∧
    (animTick tickC7 20).world.wirePieces (latticeKey ((0 : Int), (0 : Int))) =
      some ⟨WireDirection.down, 1, TipPosition.tipBeginEnd⟩ := by
  constructor
  · norm_num [WIRE_LERP_SPEED]
  · have h := reveal_inprogress_lerp tickC7 20 ⟨wireC7, 0⟩ [] rfl (by decide)
      (by norm_num [tickC7]) (by norm_num [tickC7, WIRE_LERP_SPEED])
    have h1 := h.1
    have hval : ((20 : ℚ) - tickC7.pieceLerpBeginTime) / 1000 * WIRE_LERP_SPEED = 1 := by
      norm_num [tickC7, WIRE_LERP_SPEED]
    rw [hval] at h1
    simpa [wireC7, tickC7] using h1

/-- **C8** — the reveal queue is strictly FIFO: while a second entry waits
behind the head, a tick only ever writes at lattice keys of the head wire's
nodes and keeps the second entry behind the head; the tick that removes a
drained head writes nothing. -/
theorem reveal_fifo (s : TickState) (now : ℚ) (e1 e2 : QueueEntry) (rest : List QueueEntry)
    (hq : s.world.wiresQueue = e1 :: e2 :: rest) :
    (∀ k : LatticePoint, (∀ n ∈ e1.wire, latticeKey n.point ≠ k) →
      (animTick s now).world.wirePieces k = s.world.wirePieces k) ∧
    (e1.cursor < e1.wire.length →
      ∃ c, (animTick s now).world.wiresQueue = ⟨e1.wire, c⟩ :: e2 :: rest) ∧
    (¬ e1.cursor < e1.wire.length →
      (animTick s now).world.wirePieces = s.world.wirePieces ∧
      (animTick s now).world.wiresQueue = e2 :: rest) := by
  rw [animTick_cons s now e1 (e2 :: rest) hq]
  by_cases hc : e1.cursor < e1.wire.length
  · have hmem : e1.wire.get ⟨e1.cursor, hc⟩ ∈ e1.wire := e1.wire.get_mem e1.cursor hc
    refine ⟨?_, ?_, fun h => absurd hc h⟩
    · intro k hk
      have hne := hk _ hmem
      unfold animTickHead
      rw [dif_pos hc]
      by_cases ht : now > s.pieceLerpBeginTime + 1000 / WIRE_LERP_SPEED
      · rw [if_pos ht]
        simp only [storeSet]
        rw [if_neg (fun h => hne h.symm)]
      · rw [if_neg ht]
        simp only [storeSet]
        rw [if_neg (fun h => hne h.symm)]
    · intro _
      unfold animTickHead
      rw [dif_pos hc]
      by_cases ht : now > s.pieceLerpBeginTime + 1000 / WIRE_LERP_SPEED
      · rw [if_pos ht]
        exact ⟨e1.cursor + 1, rfl⟩
      · rw [if_neg ht]
        exact ⟨e1.cursor, rfl⟩
  · refine ⟨?_, fun h => absurd h hc, fun _ => ?_⟩
    · intro k _
      unfold animTickHead
      rw [dif_neg hc]
    · unfold animTickHead
      rw [dif_neg hc]
      exact ⟨rfl, rfl⟩

/-- A reveal state with two queued wires: `wireC6` ahead of `wireC7`. -/
def tickC8 : TickState :=
  { world :=
      { dimensions := (10, 10)
        wirePieces := fun _ => none
        wiresQueue := [⟨wireC6, 0⟩, ⟨wireC7, 0⟩] }
    pieceLerpBeginTime := 0
    dirty := false }

/-- Witness for C8 on the concrete two-entry queue: the tick leaves the
store untouched at a key outside the head wire. -/
theorem reveal_fifo_witness :
    (animTick tickC8 10).world.wirePieces (latticeKey ((5 : Int), (5 : Int))) =
      tickC8.world.wirePieces (latticeKey ((5 : Int), (5 : Int))) :=
  (reveal_fifo tickC8 10 ⟨wireC6, 0⟩ ⟨wireC7, 0⟩ [] rfl).1 (latticeKey (5, 5)) (by decide)

/-- State of the admission callback `wireGeneratorTimer` (art.ts lines
162-183): the world, the consecutive-failure counter `failedTries`, and
whether `clearInterval` has been called (after which the callback never runs
again). -/
structure AdmissionState where
  world : World
  failedTries : Nat
  stopped : Bool

/-- Whether an admission tick at state `s` reaches the generation step: the
timer is still installed, the queue is empty, and the failure budget check
`failedTries > 200` has not fired. -/
def admissionGenerates (s : AdmissionState) : Bool :=
  !s.stopped && s.world.wiresQueue.isEmpty && !(decide (200 < s.failedTries))

/-- One invocation of the admission callback, with `candidate` the wire the
generator would produce on this tick: bail out on a non-empty queue, stop for
good past the failure budget, count an intersecting candidate as a failure,
and otherwise reset the counter and push the wire with cursor 0. -/
def admissionTick (s : AdmissionState) (candidate : Wire) : AdmissionState :=
  if s.stopped then s
  else if 0 < s.world.wiresQueue.length then s
  else if 200 < s.failedTries then { s with stopped := true }
  else if wireIntersects s.world candidate then { s with failedTries := s.failedTries + 1 }
  else
    { s with
      failedTries := 0
      world :=
        { dimensions := s.world.dimensions
          wirePieces := s.world.wirePieces
          wiresQueue := s.world.wiresQueue ++ [⟨candidate, 0⟩] } }

/-- Iterate the admission callback over the candidate stream `cands`. -/
def runAdmission (s : AdmissionState) (cands : ℕ → Wire) : ℕ → AdmissionState
  | 0 => s
  | n + 1 => admissionTick (runAdmission s cands n) (cands n)

theorem admissionTick_stopped (s : AdmissionState) (c : Wire) (h : s.stopped = true) :
    admissionTick s c = s := by
  simp [admissionTick, h]

theorem runAdmission_succ (s : AdmissionState) (cands : ℕ → Wire) (n : ℕ) :
    runAdmission s cands (n + 1) = admissionTick (runAdmission s cands n) (cands n) := rfl

theorem runAdmission_fail (w : World) (cands : ℕ → Wire) (hq : w.wiresQueue = [])
    (hall : ∀ i, wireIntersects w (cands i) = true) :
    ∀ n, n ≤ 201 → runAdmission ⟨w, 0, false⟩ cands n = ⟨w, n, false⟩ := by
  intro n
  induction n with
  | zero => intro _; rfl
  | succ n ih =>
    intro h
    have hn := ih (by omega)
    have h200 : ¬ 200 < n := by omega
    rw [runAdmission_succ, hn]
    show admissionTick ⟨w, n, false⟩ (cands n) = ⟨w, n + 1, false⟩
    unfold admissionTick
    rw [if_neg (by simp), if_neg (by simp [hq]), if_neg (by simpa using h200),
      if_pos (hall n)]

theorem runAdmission_fail_after (w : World) (cands : ℕ → Wire) (hq : w.wiresQueue = [])
    (hall : ∀ i, wireIntersects w (cands i) = true) :
    ∀ m, runAdmission ⟨w, 0, false⟩ cands (202 + m) = ⟨w, 201, true⟩ := by
  intro m
  induction m with
  | zero =>
    have h201 := runAdmission_fail w cands hq hall 201 le_rfl
    show runAdmission ⟨w, 0, false⟩ cands (201 + 1) = ⟨w, 201, true⟩
    rw [runAdmission_succ, h201]
    unfold admissionTick
    rw [if_neg (by simp), if_neg (by simp [hq]), if_pos (by norm_num)]
  | succ m ih =>
    show runAdmission ⟨w, 0, false⟩ cands (202 + m + 1) = ⟨w, 201, true⟩
    rw [runAdmission_succ, ih]
    exact admissionTick_stopped _ _ rfl

/-- **C3 (amended)** — if every candidate intersects existing occupancy,
each of the first 201 admission ticks generates a candidate and fails, and
once the 201st consecutive failure has occurred no admission tick ever
generates a candidate or enqueues a wire again for that world instance. -/
theorem admission_stops_after_201 (w : World) (cands : ℕ → Wire)
    (hq : w.wiresQueue = []) (hall : ∀ i, wireIntersects w (cands i) = true) :
    (∀ n, n < 201 → admissionGenerates (runAdmission ⟨w, 0, false⟩ cands n) = true ∧
      (runAdmission ⟨w, 0, false⟩ cands n).failedTries = n) ∧
    (∀ n, 201 ≤ n → admissionGenerates (runAdmission ⟨w, 0, false⟩ cands n) = false ∧
      (runAdmission ⟨w, 0, false⟩ cands n).world.wiresQueue = []) := by
  constructor
  · intro n hn
    have h := runAdmission_fail w cands hq hall n (by omega)
    rw [h]
    have h200 : ¬ 200 < n := by omega
    constructor
    · simp [admissionGenerates, hq, h200]
    · rfl
  · intro n hn
    by_cases h201 : n = 201
    · subst h201
      have h := runAdmission_fail w cands hq hall 201 le_rfl
      rw [h]
      constructor
      · simp [admissionGenerates]
      · exact hq
    · obtain ⟨m, rfl⟩ : ∃ m, n = 202 + m := ⟨n - 202, by omega⟩
      have h := runAdmission_fail_after w cands hq hall m
      rw [h]
      constructor
      · simp [admissionGenerates]
      · exact hq

/-- A single-node candidate at the origin, rejected over `world1`. -/
def wireHit : Wire := [⟨(0, 0), WireDirection.down⟩]

theorem wireHit_intersects : wireIntersects world1 wireHit = true := by decide

/-- Witness for C3 over `world1` with the constant rejected candidate: at
tick 201 admission no longer generates and nothing was ever enqueued. -/
theorem admission_stops_after_201_witness :
    admissionGenerates (runAdmission ⟨world1, 0, false⟩ (fun _ => wireHit) 201) = false ∧
    (runAdmission ⟨world1, 0, false⟩ (fun _ => wireHit) 201).world.wiresQueue = [] :=
  (admission_stops_after_201 world1 (fun _ => wireHit) rfl (fun _ => wireHit_intersects)).2
    201 le_rfl

/-- Counterexample to C3 as stated: with every candidate intersecting, after
the 200th consecutive failure (`failedTries = 200`) the admission tick still
reaches the generation step, because the stop test is `failedTries > 200`. -/
theorem admission_200th_failure_still_generates :
    admissionGenerates (runAdmission ⟨world1, 0, false⟩ (fun _ => wireHit) 200) = true ∧
    (runAdmission ⟨world1, 0, false⟩ (fun _ => wireHit) 200).failedTries = 200 := by
  have h := runAdmission_fail world1 (fun _ => wireHit) rfl (fun _ => wireHit_intersects)
    200 (by omega)
  rw [h]
  exact ⟨rfl, rfl⟩
